import Mathlib

/-
Verification of the word-transition model in src/predict.py
(class MarkovChainGenerator).

The embedding mirrors the Python source:
  * the transition table `self.word_pairs` (a `defaultdict(list)` whose
    iteration order is insertion order) is modelled as an insertion-ordered
    association list `Table`;
  * `clean_text` is modelled character-by-character: delete the characters
    of the literal punctuation string, lowercase, strip surrounding
    whitespace;
  * `str.split()` (split on runs of whitespace, discarding empty tokens)
    is modelled by `splitWsAux`;
  * `process_epub` folds the adjacency-recording loop over the paragraphs
    supplied by the external decoding collaborators;
  * `save_word_pairs` produces the list of CSV rows (each row a list of
    fields);
  * `generate_text` is state-passing: it returns the produced value
    together with the table after the call, with `defaultdict` item
    access modelled by `ddGet` (which autovivifies a missing key) so that
    non-mutation is a theorem rather than a modelling artifact.
-/

/-- The transition table: `self.word_pairs`, an insertion-ordered mapping
from a predecessor token to the ordered list of observed successors. -/
abbrev Table := List (String × List String)

/-- Dictionary lookup (Python `d[k]` read / `k in d` support). -/
def lookupTable : Table → String → Option (List String)
  | [], _ => none
  | (k, vs) :: rest, key => if k = key then some vs else lookupTable rest key

/-- The keys of the table, in insertion order (Python dict iteration order). -/
def keys (t : Table) : List String := t.map Prod.fst

/-- Total number of recorded adjacencies (sum of successor-list lengths). -/
def totalPairs : Table → Nat
  | [] => 0
  | (_, vs) :: rest => vs.length + totalPairs rest

/-- The literal punctuation string of `clean_text`:
`'".,()?!:“;[]{}\'\"'` — note the straight double quote appears twice and
the only curly quotation mark present is the left double one (U+201C).
`str.translate` treats it as a set of characters to delete. -/
def punctuation : List Char :=
  [Char.ofNat 34, '.', ',', '(', ')', '?', '!', ':', Char.ofNat 8220,
   ';', '[', ']', Char.ofNat 123, Char.ofNat 125, Char.ofNat 39, Char.ofNat 34]

/-- Python `str.strip()`: drop leading and trailing whitespace characters. -/
def pyStrip (cs : List Char) : List Char :=
  ((cs.dropWhile Char.isWhitespace).reverse.dropWhile Char.isWhitespace).reverse

/-- `clean_text`: delete every punctuation character, lowercase, strip. -/
def clean_text (s : String) : String :=
  String.mk (pyStrip ((s.data.filter (fun c => !(punctuation.contains c))).map Char.toLower))

/-- Python `str.split()` with no separator: split on runs of whitespace,
discarding empty tokens.  `acc` holds the characters of the token under
construction, in reverse. -/
def splitWsAux : List Char → List Char → List (List Char)
  | [], acc => if acc.isEmpty then [] else [acc.reverse]
  | c :: cs, acc =>
    if c.isWhitespace then
      if acc.isEmpty then splitWsAux cs []
      else acc.reverse :: splitWsAux cs []
    else splitWsAux cs (c :: acc)

/-- Python `text.split()`. -/
def pySplit (s : String) : List String :=
  (splitWsAux s.data []).map (fun cs => String.mk cs)

/-- The Text Normalizer: `clean_text` followed by `split()`, exactly as the
paragraph loop of `process_epub` applies them. -/
def tokenize (p : String) : List String := pySplit (clean_text p)

/-- One `self.word_pairs[first].append(second)` on a `defaultdict(list)`:
append to the entry if the key is present, otherwise create the entry at
the end of the insertion order with the one-element list. -/
def appendPair : Table → String → String → Table
  | [], k, v => [(k, [v])]
  | (k', vs) :: rest, k, v =>
    if k' = k then (k', vs ++ [v]) :: rest
    else (k', vs) :: appendPair rest k v

/-- The body of the paragraph loop of `process_epub`:
`for i in range(len(words) - 1): self.word_pairs[words[i]].append(words[i+1])`. -/
def process_paragraph (t : Table) (p : String) : Table :=
  let words := tokenize p
  (List.range (words.length - 1)).foldl
    (fun acc i => appendPair acc (words.getD i "") (words.getD (i + 1) "")) t

/-- The full build loop over all paragraph strings. -/
def buildTable (t : Table) (ps : List String) : Table := ps.foldl process_paragraph t

/-- `process_epub`.  The EPUB decoding and markup extraction are external
collaborators (ebooklib / BeautifulSoup); their outcome is the input here:
either a decode error or the list of paragraph strings.  The `try/except`
in the source logs and re-raises, so an error propagates unchanged and no
completed table is returned for it. -/
def process_epub (t : Table) (decoded : Except String (List String)) :
    Except String Table :=
  match decoded with
  | Except.error e => Except.error e
  | Except.ok ps => Except.ok (buildTable t ps)

/-- The data rows written by `save_word_pairs`: one `[first, second]` row
per recorded adjacency, predecessors in table (= insertion) order,
successors in observed order. -/
def pairRows : Table → List (List String)
  | [] => []
  | (k, vs) :: rest => vs.map (fun s => [k, s]) ++ pairRows rest

/-- `save_word_pairs`: the CSV contents as a list of rows, header first. -/
def save_word_pairs (t : Table) : List (List String) :=
  ["first", "last"] :: pairRows t

/-- State-passing view of `save_word_pairs`: the rows it writes and the
table after the call (the method only iterates `self.word_pairs.items()`). -/
def save_word_pairsS (t : Table) : List (List String) × Table :=
  (save_word_pairs t, t)

/-- `defaultdict(list).__getitem__`: return the stored list, or create an
empty entry (at the end of the insertion order) when the key is absent. -/
def ddGet (t : Table) (k : String) : List String × Table :=
  match lookupTable t k with
  | some vs => (vs, t)
  | none => ([], t ++ [(k, [])])

/-- The generation loop of `generate_text`, state-passing.  `n` is the
remaining iteration count (`range(length - 1)`), `current` the current
word, `picks i` the index the random source would draw at step `i`
(`random.choice(seq)` is modelled as `seq[picks i % len(seq)]`).  Returns
the appended words together with the table after the loop; the
`defaultdict` access is guarded by the `not in` membership test exactly as
in the source. -/
def walkS : Table → Nat → String → (Nat → Nat) → Nat → List String × Table
  | t, 0, _, _, _ => ([], t)
  | t, n + 1, current, picks, i =>
    if (lookupTable t current).isSome then
      let g := ddGet t current
      let next := g.1.getD (picks i % g.1.length) ""
      let rest := walkS g.2 n next picks (i + 1)
      (next :: rest.1, rest.2)
    else ([], t)

/-- Python `' '.join(words)`. -/
def joinWords : List String → String
  | [] => ""
  | w :: ws => ws.foldl (fun acc x => acc ++ " " ++ x) w

/-- `generate_text`, state-passing: the returned value (an error when the
start word is absent from the table, the joined walk otherwise) together
with the table after the call.  `length` is an `Int` because the Python
parameter is an arbitrary integer; `range(length - 1)` iterates
`max(0, length - 1)` times. -/
def generate_text (t : Table) (start : String) (length : Int)
    (picks : Nat → Nat) : Except String String × Table :=
  if (lookupTable t start).isSome then
    let r := walkS t (length - 1).toNat start picks 0
    (Except.ok (joinWords (start :: r.1)), r.2)
  else
    (Except.error ("Start word " ++ start ++ " not found in the word pairs"), t)

/-- Last element of a list, or the default when the list is empty. -/
def lastD : List String → String → String
  | [], d => d
  | w :: ws, _ => lastD ws w

/-- `chainFrom t prev ws` holds when every word of `ws` is a member of the
table entry of the word before it (with `prev` before the first). -/
def chainFrom (t : Table) : String → List String → Prop
  | _, [] => True
  | prev, w :: ws =>
    (∃ vs, lookupTable t prev = some vs ∧ w ∈ vs) ∧ chainFrom t w ws

/-- A read-only call on a built model: an export, or a generation with a
given start word, requested length and random source. -/
inductive ReadOp where
  | save : ReadOp
  | gen : String → Int → (Nat → Nat) → ReadOp

/-- The table left behind by one read-only call. -/
def runRead (t : Table) : ReadOp → Table
  | ReadOp.save => (save_word_pairsS t).2
  | ReadOp.gen s L p => (generate_text t s L p).2

/-- Modelled from the spec: re-parsing one exported data row
(`[first, last]`) records the adjacency `first → last` again.  The
repository has no loader; the spec's round-trip property (§8) defines the
re-parse as reading the tabular output back into a table. -/
def loadStep (acc : Table) (r : List String) : Table :=
  appendPair acc (r.headD "") (r.getD 1 "")

/-- Modelled from the spec: re-parse exported data rows into a table. -/
def load_word_pairs (rows : List (List String)) : Table :=
  rows.foldl loadStep []

/-- The punctuation set as the spec sentence for the claim describes it:
quotation marks in both straight and curly forms (double U+201C/U+201D and
single U+2018/U+2019), parentheses, brackets, braces, comma, period,
colon, semicolon, question mark, exclamation mark, and apostrophe. -/
def specPunctuation : List Char :=
  [Char.ofNat 34, Char.ofNat 39, Char.ofNat 8220, Char.ofNat 8221,
   Char.ofNat 8216, Char.ofNat 8217, '(', ')', '[', ']',
   Char.ofNat 123, Char.ofNat 125, ',', '.', ':', ';', '?', '!']

/- Helper lemmas about the table operations. -/

theorem totalPairs_appendPair (t : Table) (k v : String) :
    totalPairs (appendPair t k v) = totalPairs t + 1 := by
  induction t with
  | nil => simp [appendPair, totalPairs]
  | cons e rest ih =>
    obtain ⟨k', vs⟩ := e
    by_cases h : k' = k
    · simp [appendPair, h, totalPairs]
      omega
    · simp [appendPair, h, totalPairs, ih]
      omega

theorem totalPairs_foldl_appendPair (f g : Nat → String) :
    ∀ (l : List Nat) (t : Table),
      totalPairs (l.foldl (fun acc i => appendPair acc (f i) (g i)) t) =
        totalPairs t + l.length := by
  intro l
  induction l with
  | nil => intro t; simp
  | cons x xs ih =>
    intro t
    simp only [List.foldl_cons, ih, totalPairs_appendPair, List.length_cons]
    omega

theorem totalPairs_process_paragraph (t : Table) (p : String) :
    totalPairs (process_paragraph t p) = totalPairs t + ((tokenize p).length - 1) := by
  unfold process_paragraph
  simp only [totalPairs_foldl_appendPair, List.length_range]

/-- C1: building from one paragraph adds exactly `max(0, n - 1)` adjacencies
to the Transition Table, where `n` is the number of tokens the Normalizer
produces from the paragraph (in `Nat`, `n - 1` is truncated subtraction, so
it equals `max(0, n - 1)`); a paragraph with fewer than 2 tokens (the empty
string included) leaves the table exactly unchanged. -/
theorem build_adds_tokenCount_sub_one (t : Table) (p : String) :
    totalPairs (process_paragraph t p) = totalPairs t + ((tokenize p).length - 1) ∧
      ((tokenize p).length < 2 → process_paragraph t p = t) := by
  refine ⟨totalPairs_process_paragraph t p, ?_⟩
  intro h
  have hz : (tokenize p).length - 1 = 0 := by omega
  unfold process_paragraph
  simp [hz]

/-- Witness for C1 at the concrete one-token paragraph `"Hello."`. -/
theorem build_adds_tokenCount_sub_one_witness :
    totalPairs (process_paragraph [] "Hello.") = 0 + ((tokenize "Hello.").length - 1) ∧
      process_paragraph [] "Hello." = [] := by
  refine ⟨(build_adds_tokenCount_sub_one [] "Hello.").1, ?_⟩
  exact (build_adds_tokenCount_sub_one [] "Hello.").2 (by decide)

theorem length_pairRows (t : Table) : (pairRows t).length = totalPairs t := by
  induction t with
  | nil => rfl
  | cons e rest ih =>
    obtain ⟨k, vs⟩ := e
    simp [pairRows, totalPairs, ih]

/-- C4: the export output is the header row `["first", "last"]` followed by
one data row per recorded adjacency — the data-row count equals the total
number of adjacencies — and the data rows list each predecessor's
successors contiguously, predecessors in table (entry-creation) order and
successors in observed order, a predecessor with `k` successors yielding
`k` rows. -/
theorem export_rows_shape (t : Table) :
    (save_word_pairs t).headD [] = ["first", "last"] ∧
      (save_word_pairs t).tail.length = totalPairs t ∧
      (save_word_pairs t).tail = pairRows t := by
  refine ⟨rfl, ?_, rfl⟩
  simpa [save_word_pairs] using length_pairRows t

/-- C6: if the external decode/extract step fails, `process_epub`
propagates that error unchanged, and a completed (`ok`) build is returned
only for a successful decode — never for a failure, so a failed build is
always distinguishable from a fully-built model. -/
theorem build_failure_propagates (t : Table) (d : Except String (List String)) :
    (∀ e, d = Except.error e → process_epub t d = Except.error e) ∧
      (∀ r, process_epub t d = Except.ok r →
        ∃ ps, d = Except.ok ps ∧ r = buildTable t ps) := by
  constructor
  · intro e he
    subst he
    rfl
  · intro r hr
    cases d with
    | error e => simp [process_epub] at hr
    | ok ps =>
      refine ⟨ps, rfl, ?_⟩
      simpa [process_epub] using hr.symm

/-- Witness for C6 at a concrete failed decode and a concrete successful one. -/
theorem build_failure_propagates_witness :
    process_epub [] (Except.error "DecodeError") = Except.error "DecodeError" ∧
      ∃ ps, (Except.ok ["a b"] : Except String (List String)) = Except.ok ps ∧
        buildTable [] ["a b"] = buildTable [] ps := by
  constructor
  · exact (build_failure_propagates [] (Except.error "DecodeError")).1 "DecodeError" rfl
  · exact (build_failure_propagates [] (Except.ok ["a b"])).2 (buildTable [] ["a b"]) rfl

theorem walkS_snd : ∀ (n : Nat) (t : Table) (cur : String) (picks : Nat → Nat) (i : Nat),
    (walkS t n cur picks i).2 = t := by
  intro n
  induction n with
  | zero => intro t cur picks i; rfl
  | succ m ih =>
    intro t cur picks i
    by_cases h : (lookupTable t cur).isSome
    · obtain ⟨vs, hvs⟩ := Option.isSome_iff_exists.mp h
      simp [walkS, h, ddGet, hvs, ih]
    · simp [walkS, h]

theorem generate_text_snd (t : Table) (s : String) (L : Int) (picks : Nat → Nat) :
    (generate_text t s L picks).2 = t := by
  unfold generate_text
  by_cases h : (lookupTable t s).isSome
  · simp [h, walkS_snd]
  · simp [h]

theorem runRead_eq (t : Table) (op : ReadOp) : runRead t op = t := by
  cases op with
  | save => rfl
  | gen s L p => exact generate_text_snd t s L p

/-- C8: export and generate never mutate the Transition Table — any
sequence of export and generate calls, with any start words (present in
the table or not), any requested lengths and any random sources, leaves
the table exactly unchanged. -/
theorem reads_never_mutate (t : Table) (ops : List ReadOp) :
    ops.foldl runRead t = t := by
  induction ops with
  | nil => rfl
  | cons op rest ih => simp [List.foldl_cons, runRead_eq, ih]

theorem getD_mem {l : List String} {n : Nat} (h : n < l.length) (d : String) :
    l.getD n d ∈ l := by
  rw [List.getD_eq_getElem l d h]
  exact List.getElem_mem h

theorem walkS_spec (t : Table)
    (hwf : ∀ k vs, lookupTable t k = some vs → vs ≠ []) :
    ∀ (n : Nat) (cur : String) (picks : Nat → Nat) (i : Nat),
      (walkS t n cur picks i).1.length ≤ n ∧
        chainFrom t cur (walkS t n cur picks i).1 ∧
        ((walkS t n cur picks i).1.length < n →
          lookupTable t (lastD (walkS t n cur picks i).1 cur) = none) := by
  intro n
  induction n with
  | zero =>
    intro cur picks i
    exact ⟨Nat.le_refl 0, trivial, fun h => absurd h (Nat.lt_irrefl 0)⟩
  | succ m ih =>
    intro cur picks i
    by_cases h : (lookupTable t cur).isSome
    · obtain ⟨vs, hvs⟩ := Option.isSome_iff_exists.mp h
      have hne : vs ≠ [] := hwf cur vs hvs
      have hlen : 0 < vs.length := List.length_pos.mpr hne
      have hmem : vs.getD (picks i % vs.length) "" ∈ vs :=
        getD_mem (Nat.mod_lt _ hlen) ""
      have hw : walkS t (m + 1) cur picks i =
          (vs.getD (picks i % vs.length) "" ::
            (walkS t m (vs.getD (picks i % vs.length) "") picks (i + 1)).1,
           (walkS t m (vs.getD (picks i % vs.length) "") picks (i + 1)).2) := by
        simp [walkS, h, ddGet, hvs]
      obtain ⟨ih1, ih2, ih3⟩ := ih (vs.getD (picks i % vs.length) "") picks (i + 1)
      rw [hw]
      refine ⟨by simpa using Nat.succ_le_succ ih1, ⟨⟨vs, hvs, hmem⟩, ih2⟩, ?_⟩
      intro hshort
      simp only [List.length_cons, Nat.succ_lt_succ_iff] at hshort
      simpa [lastD] using ih3 hshort
    · refine ⟨?_, ?_, ?_⟩
      · simp [walkS, h]
      · simp [walkS, h, chainFrom]
      · intro _
        simp only [walkS, h, if_false, Bool.false_eq_true]
        simpa [lastD] using Option.not_isSome_iff_eq_none.mp h

/-- Every entry of the table holds a non-empty successor list. -/
def NonEmptyVals (t : Table) : Prop :=
  ∀ k vs, lookupTable t k = some vs → vs ≠ []

theorem lookupTable_appendPair (t : Table) (k v key : String) :
    lookupTable (appendPair t k v) key =
      if key = k then some (((lookupTable t k).getD []) ++ [v])
      else lookupTable t key := by
  induction t with
  | nil =>
    by_cases hk : key = k
    · subst hk
      simp [appendPair, lookupTable]
    · simp [appendPair, lookupTable, hk, Ne.symm hk]
  | cons e rest ih =>
    obtain ⟨k', vs'⟩ := e
    by_cases hk' : k' = k
    · subst hk'
      by_cases hkey : key = k'
      · subst hkey
        simp [appendPair, lookupTable]
      · simp [appendPair, lookupTable, hkey, Ne.symm hkey]
    · by_cases hkey : k' = key
      · subst hkey
        simp [appendPair, lookupTable, hk']
      · simp [appendPair, lookupTable, hk', hkey, ih]

theorem nonEmptyVals_appendPair {t : Table} (h : NonEmptyVals t) (k v : String) :
    NonEmptyVals (appendPair t k v) := by
  intro key vs hvs
  rw [lookupTable_appendPair] at hvs
  split at hvs
  · cases hvs; simp
  · exact h key vs hvs

theorem nonEmptyVals_foldl_appendPair (f g : Nat → String) :
    ∀ (l : List Nat) (t : Table), NonEmptyVals t →
      NonEmptyVals (l.foldl (fun acc i => appendPair acc (f i) (g i)) t) := by
  intro l
  induction l with
  | nil => intro t h; exact h
  | cons x xs ih =>
    intro t h
    exact ih _ (nonEmptyVals_appendPair h (f x) (g x))

theorem nonEmptyVals_process_paragraph {t : Table} (h : NonEmptyVals t) (p : String) :
    NonEmptyVals (process_paragraph t p) := by
  unfold process_paragraph
  exact nonEmptyVals_foldl_appendPair _ _ _ t h

theorem nonEmptyVals_buildTable : ∀ (ps : List String) (t : Table), NonEmptyVals t →
    NonEmptyVals (buildTable t ps) := by
  intro ps
  induction ps with
  | nil => intro t h; exact h
  | cons p rest ih =>
    intro t h
    exact ih _ (nonEmptyVals_process_paragraph h p)

theorem nonEmptyVals_nil : NonEmptyVals [] := by
  intro k vs hvs
  cases hvs

/-- C2: on a table whose entries are all non-empty (as every built table
is), for a start word present in the table and any requested length
`L ≥ 1`, `generate_text` succeeds and returns the words of the walk joined
by single spaces, where the walk has between `1` and `L` words, begins
with the start word, each later word is a member of the table entry of the
word before it, a walk shorter than `L` ends in a word with no table
entry, and `L = 1` yields exactly the start word. -/
theorem generate_walk_spec (t : Table) (start : String) (L : Int) (picks : Nat → Nat)
    (hwf : ∀ k vs, lookupTable t k = some vs → vs ≠ [])
    (hs : (lookupTable t start).isSome) (hL : 1 ≤ L) :
    ∃ ws, (generate_text t start L picks).1 = Except.ok (joinWords ws) ∧
      1 ≤ ws.length ∧ ws.length ≤ L.toNat ∧
      ws.headD "" = start ∧ chainFrom t start ws.tail ∧
      (ws.length < L.toNat → lookupTable t (lastD ws "") = none) ∧
      (L = 1 → ws = [start]) := by
  refine ⟨start :: (walkS t (L - 1).toNat start picks 0).1, ?_, ?_, ?_, rfl, ?_, ?_, ?_⟩
  · simp [generate_text, hs]
  · simp
  · obtain ⟨h1, _, _⟩ := walkS_spec t hwf (L - 1).toNat start picks 0
    simp only [List.length_cons]
    omega
  · exact (walkS_spec t hwf (L - 1).toNat start picks 0).2.1
  · intro hshort
    obtain ⟨_, _, h3⟩ := walkS_spec t hwf (L - 1).toNat start picks 0
    simp only [List.length_cons] at hshort
    have : (walkS t (L - 1).toNat start picks 0).1.length < (L - 1).toNat := by omega
    simpa [lastD] using h3 this
  · intro hone
    subst hone
    rfl

/-- Witness for C2 on the table built from the spec's worked example,
start word `"the"`, requested length `3`, first-candidate random source. -/
theorem generate_walk_spec_witness :
    ∃ ws, (generate_text (buildTable [] ["The cat sat. The cat ran."]) "the" 3
        (fun _ => 0)).1 = Except.ok (joinWords ws) ∧
      1 ≤ ws.length ∧ ws.length ≤ (3 : Int).toNat ∧
      ws.headD "" = "the" ∧
      chainFrom (buildTable [] ["The cat sat. The cat ran."]) "the" ws.tail ∧
      (ws.length < (3 : Int).toNat →
        lookupTable (buildTable [] ["The cat sat. The cat ran."]) (lastD ws "") = none) ∧
      ((3 : Int) = 1 → ws = ["the"]) :=
  generate_walk_spec (buildTable [] ["The cat sat. The cat ran."]) "the" 3 (fun _ => 0)
    (nonEmptyVals_buildTable ["The cat sat. The cat ran."] [] nonEmptyVals_nil)
    (by decide) (by decide)

/-- C3: `generate_text` fails if and only if the start word has no entry
in the Transition Table; the failure is the returned value itself (no walk
output is produced in that case), while a start word with an entry always
yields a successful (possibly early-terminated) result. -/
theorem generate_error_iff_unknown_start (t : Table) (s : String) (L : Int)
    (picks : Nat → Nat) :
    (∃ e, (generate_text t s L picks).1 = Except.error e) ↔
      lookupTable t s = none := by
  unfold generate_text
  by_cases h : (lookupTable t s).isSome
  · simp [h, Option.isSome_iff_ne_none.mp h]
  · simp [h, Option.not_isSome_iff_eq_none.mp h]

/-- Witness for C3: the empty table has no entry for `"x"`, and generation
from `"x"` on it returns an error. -/
theorem generate_error_iff_unknown_start_witness :
    ∃ e, (generate_text [] "x" 5 (fun _ => 0)).1 = Except.error e :=
  (generate_error_iff_unknown_start [] "x" 5 (fun _ => 0)).mpr rfl

/-- C9: every key of a built Transition Table maps to a non-empty
successor list, and the read operations (export and generation, whose
membership checks never create an entry) keep it that way — so sampling
from the entry of any key found in the table never examines an empty
sequence. -/
theorem table_entries_nonempty (ps : List String) (op : ReadOp) (k : String)
    (vs : List String)
    (h : lookupTable (runRead (buildTable [] ps) op) k = some vs) : vs ≠ [] := by
  rw [runRead_eq] at h
  exact nonEmptyVals_buildTable ps [] nonEmptyVals_nil k vs h

/-- Witness for C9 on the table built from `"a b"` after an export call. -/
theorem table_entries_nonempty_witness :
    lookupTable (runRead (buildTable [] ["a b"]) ReadOp.save) "a" = some ["b"] ∧
      ["b"] ≠ ([] : List String) :=
  ⟨by decide, table_entries_nonempty ["a b"] ReadOp.save "a" ["b"] (by decide)⟩

/-- C10: for a requested length `L ≤ 0` (below the spec's precondition)
and a start word present in the table, `generate_text` does not fail: the
loop `range(L - 1)` runs zero times and the result is exactly the start
word. -/
theorem generate_nonpositive_length (t : Table) (s : String) (L : Int)
    (picks : Nat → Nat) (hL : L ≤ 0) (hs : (lookupTable t s).isSome) :
    (generate_text t s L picks).1 = Except.ok s := by
  have h0 : (L - 1).toNat = 0 := by omega
  simp [generate_text, hs, h0, walkS, joinWords]

/-- Witness for C10 on the table built from `"a b"`, length `0`. -/
theorem generate_nonpositive_length_witness :
    (generate_text (buildTable [] ["a b"]) "a" 0 (fun _ => 0)).1 = Except.ok "a" :=
  generate_nonpositive_length (buildTable [] ["a b"]) "a" 0 (fun _ => 0)
    (by decide) (by decide)

theorem appendPair_of_not_mem : ∀ {t : Table} {k : String}, k ∉ keys t →
    ∀ (v : String), appendPair t k v = t ++ [(k, [v])] := by
  intro t
  induction t with
  | nil => intro k _ v; rfl
  | cons e rest ih =>
    obtain ⟨k', vs'⟩ := e
    intro k h v
    simp only [keys, List.map_cons, List.mem_cons, not_or] at h
    have hk : ¬(k' = k) := fun he => h.1 he.symm
    simp only [appendPair, if_neg hk, List.cons_append, List.cons.injEq, true_and]
    exact ih (by simpa [keys] using h.2) v

theorem appendPair_append_last : ∀ {t : Table} {k : String}, k ∉ keys t →
    ∀ (ws : List String) (v : String),
      appendPair (t ++ [(k, ws)]) k v = t ++ [(k, ws ++ [v])] := by
  intro t
  induction t with
  | nil => intro k _ ws v; simp [appendPair]
  | cons e rest ih =>
    obtain ⟨k', vs'⟩ := e
    intro k h ws v
    simp only [keys, List.map_cons, List.mem_cons, not_or] at h
    have hk : ¬(k' = k) := fun he => h.1 he.symm
    simp only [List.cons_append, appendPair, if_neg hk, List.cons.injEq, true_and]
    exact ih (by simpa [keys] using h.2) ws v

theorem foldl_loadStep_rows {k : String} :
    ∀ (vs : List String) (t : Table) (ws : List String), k ∉ keys t →
      (vs.map (fun s => [k, s])).foldl loadStep (t ++ [(k, ws)]) =
        t ++ [(k, ws ++ vs)] := by
  intro vs
  induction vs with
  | nil => intro t ws _; simp
  | cons v vs' ih =>
    intro t ws h
    have hstep : loadStep (t ++ [(k, ws)]) [k, v] = t ++ [(k, ws ++ [v])] := by
      simpa [loadStep] using appendPair_append_last h ws v
    simp only [List.map_cons, List.foldl_cons, hstep, ih t (ws ++ [v]) h,
      List.append_assoc, List.singleton_append]

theorem foldl_loadStep_entry {k : String} {vs : List String} (t : Table)
    (hk : k ∉ keys t) (hvs : vs ≠ []) :
    (vs.map (fun s => [k, s])).foldl loadStep t = t ++ [(k, vs)] := by
  cases vs with
  | nil => exact absurd rfl hvs
  | cons v vs' =>
    have hstep : loadStep t [k, v] = t ++ [(k, [v])] := by
      simpa [loadStep] using appendPair_of_not_mem hk v
    simp only [List.map_cons, List.foldl_cons, hstep, foldl_loadStep_rows vs' t [v] hk,
      List.singleton_append]

theorem foldl_loadStep_pairRows : ∀ (t acc : Table), (keys (acc ++ t)).Nodup →
    (∀ e ∈ t, e.2 ≠ []) → (pairRows t).foldl loadStep acc = acc ++ t := by
  intro t
  induction t with
  | nil => intro acc _ _; simp [pairRows]
  | cons e rest ih =>
    obtain ⟨k, vs⟩ := e
    intro acc hnd hne
    have hknd : (keys acc ++ k :: keys rest).Nodup := by
      simpa [keys] using hnd
    have hdisj : (keys acc).Disjoint (k :: keys rest) :=
      (List.nodup_append.mp hknd).2.2
    have hk : k ∉ keys acc := fun hmem => hdisj hmem (List.mem_cons_self k _)
    have hvs : vs ≠ [] := hne (k, vs) (List.mem_cons_self _ _)
    have hassoc : acc ++ (k, vs) :: rest = (acc ++ [(k, vs)]) ++ rest := by
      simp
    rw [hassoc] at hnd
    simp only [pairRows, List.foldl_append, foldl_loadStep_entry acc hk hvs]
    rw [ih (acc ++ [(k, vs)]) hnd (fun e he => hne e (List.mem_cons_of_mem _ he))]
    simp

/-- C7: re-parsing the exported data rows of a Transition Table whose keys
are distinct and whose entries are non-empty (as in every built table)
reconstructs the table exactly — in particular, for every predecessor the
successor list, with exact multiplicities and even its order, is
recovered. -/
theorem export_roundtrip (t : Table) (hnd : (keys t).Nodup)
    (hne : ∀ e ∈ t, e.2 ≠ []) :
    load_word_pairs ((save_word_pairs t).tail) = t := by
  have h := foldl_loadStep_pairRows t [] (by simpa using hnd) hne
  simpa [load_word_pairs, save_word_pairs] using h

/-- Witness for C7 on the table built from the spec's worked example. -/
theorem export_roundtrip_witness :
    load_word_pairs ((save_word_pairs (buildTable [] ["The cat sat. The cat ran."])).tail) =
      buildTable [] ["The cat sat. The cat ran."] :=
  export_roundtrip (buildTable [] ["The cat sat. The cat ran."]) (by decide) (by decide)

theorem splitWsAux_ne_nil : ∀ (cs acc tok : List Char),
    tok ∈ splitWsAux cs acc → tok ≠ [] := by
  intro cs
  induction cs with
  | nil =>
    intro acc tok h
    simp only [splitWsAux] at h
    split at h
    · cases h
    · rename_i hne
      simp only [List.mem_singleton] at h
      subst h
      simp only [List.isEmpty_iff] at hne
      simpa [List.reverse_eq_nil_iff] using hne
  | cons d cs' ih =>
    intro acc tok h
    simp only [splitWsAux] at h
    by_cases hw : d.isWhitespace
    · rw [if_pos hw] at h
      by_cases he : acc.isEmpty
      · rw [if_pos he] at h
        exact ih [] tok h
      · rw [if_neg he] at h
        rcases List.mem_cons.mp h with h' | h'
        · subst h'
          simp only [List.isEmpty_iff] at he
          simpa [List.reverse_eq_nil_iff] using he
        · exact ih [] tok h'
    · rw [if_neg hw] at h
      exact ih (d :: acc) tok h

theorem splitWsAux_chars : ∀ (cs acc tok : List Char) (c : Char),
    tok ∈ splitWsAux cs acc → c ∈ tok →
      c ∈ acc ∨ (c ∈ cs ∧ c.isWhitespace = false) := by
  intro cs
  induction cs with
  | nil =>
    intro acc tok c htok hc
    simp only [splitWsAux] at htok
    split at htok
    · cases htok
    · simp only [List.mem_singleton] at htok
      subst htok
      exact Or.inl (by simpa using hc)
  | cons d cs' ih =>
    intro acc tok c htok hc
    simp only [splitWsAux] at htok
    by_cases hw : d.isWhitespace
    · rw [if_pos hw] at htok
      by_cases he : acc.isEmpty
      · rw [if_pos he] at htok
        rcases ih [] tok c htok hc with h | h
        · cases h
        · exact Or.inr ⟨List.mem_cons_of_mem _ h.1, h.2⟩
      · rw [if_neg he] at htok
        rcases List.mem_cons.mp htok with h | h
        · subst h
          exact Or.inl (by simpa using hc)
        · rcases ih [] tok c h hc with h' | h'
          · cases h'
          · exact Or.inr ⟨List.mem_cons_of_mem _ h'.1, h'.2⟩
    · rw [if_neg hw] at htok
      rcases ih (d :: acc) tok c htok hc with h | h
      · rcases List.mem_cons.mp h with h' | h'
        · subst h'
          exact Or.inr ⟨List.mem_cons_self _ _, by simpa using hw⟩
        · exact Or.inl h'
      · exact Or.inr ⟨List.mem_cons_of_mem _ h.1, h.2⟩

theorem mem_pyStrip {c : Char} {cs : List Char} (h : c ∈ pyStrip cs) : c ∈ cs := by
  unfold pyStrip at h
  rw [List.mem_reverse] at h
  have h1 := (List.dropWhile_sublist _).subset h
  rw [List.mem_reverse] at h1
  exact (List.dropWhile_sublist _).subset h1

theorem toNat_ofNat_of_lt {n : Nat} (h : n < 55296) : (Char.ofNat n).toNat = n := by
  have hv : n.isValidChar := Or.inl h
  rw [Char.ofNat, dif_pos hv]
  rfl

theorem toLower_mem_punctuation {c : Char} (h : c.toLower ∈ punctuation) :
    c ∈ punctuation := by
  simp only [Char.toLower] at h
  split at h
  · rename_i hu
    exfalso
    have ht : (Char.ofNat (c.toNat + 32)).toNat = c.toNat + 32 :=
      toNat_ofNat_of_lt (by omega)
    have hrange : ∀ p ∈ punctuation, p.toNat < 97 ∨ 122 < p.toNat := by decide
    have h2 := hrange _ h
    omega
  · exact h

/-- C5 counterexample: the right curly double quotation mark (U+201D)
belongs to the punctuation set as the claim describes it (quotation marks
in both straight and curly forms), yet `clean_text` does not delete it —
it survives into the cleaned text and into a token. -/
theorem normalizer_curly_quote_counterexample :
    Char.ofNat 8221 ∈ specPunctuation ∧
      Char.ofNat 8221 ∈ (clean_text (String.mk [Char.ofNat 8221, 'a'])).data ∧
      tokenize (String.mk [Char.ofNat 8221, 'a']) =
        [String.mk [Char.ofNat 8221, 'a']] := by
  refine ⟨by decide, by decide, by decide⟩

/-- C5 (amended): the Normalizer deletes exactly the code's punctuation
set — straight double quote, left curly double quote (U+201C only; the
right curly double quote and the curly single quotes are not in the set),
parentheses, brackets, braces, comma, period, colon, semicolon, question
mark, exclamation mark and apostrophe — then lowercases, trims and splits
on runs of whitespace discarding empty tokens: every produced token is
non-empty and every character of a token is whitespace-free, outside the
deleted set, and is the lowercased form of an input character that was
itself outside the deleted set. -/
theorem normalizer_tokens_spec (s : String) (tok : String) (c : Char)
    (htok : tok ∈ tokenize s) (hc : c ∈ tok.data) :
    tok ≠ "" ∧ c.isWhitespace = false ∧ c ∉ punctuation ∧
      ∃ c₀, c₀ ∈ s.data ∧ c₀ ∉ punctuation ∧ c = c₀.toLower := by
  unfold tokenize pySplit at htok
  rcases List.mem_map.mp htok with ⟨cs, hcs, rfl⟩
  have hcc : c ∈ cs := hc
  have hne : (String.mk cs) ≠ "" := fun hnil =>
    splitWsAux_ne_nil _ _ _ hcs (congrArg String.data hnil)
  have hws : c.isWhitespace = false := by
    rcases splitWsAux_chars _ _ _ _ hcs hcc with h | h
    · cases h
    · exact h.2
  have hprov : ∃ c₀, c₀ ∈ s.data ∧ c₀ ∉ punctuation ∧ c = c₀.toLower := by
    rcases splitWsAux_chars _ _ _ _ hcs hcc with h | h
    · cases h
    · have hmap : c ∈ (s.data.filter (fun a => !(punctuation.contains a))).map Char.toLower :=
        mem_pyStrip h.1
      rcases List.mem_map.mp hmap with ⟨c₀, hc₀, rfl⟩
      rcases List.mem_filter.mp hc₀ with ⟨hmem, hpunct⟩
      exact ⟨c₀, hmem, by simpa using hpunct, rfl⟩
  refine ⟨hne, hws, ?_, hprov⟩
  obtain ⟨c₀, _, hc₀p, rfl⟩ := hprov
  exact fun hmem => hc₀p (toLower_mem_punctuation hmem)

/-- Witness for the amended C5 on the input `A”b.`: the period is deleted,
the `A` is lowercased, and the undeleted right curly quote sits inside the
one produced token. -/
theorem normalizer_tokens_spec_witness :
    String.mk ['a', Char.ofNat 8221, 'b'] ≠ "" ∧
      (Char.ofNat 8221).isWhitespace = false ∧
      Char.ofNat 8221 ∉ punctuation ∧
      ∃ c₀, c₀ ∈ (String.mk ['A', Char.ofNat 8221, 'b', '.']).data ∧
        c₀ ∉ punctuation ∧ Char.ofNat 8221 = c₀.toLower :=
  normalizer_tokens_spec (String.mk ['A', Char.ofNat 8221, 'b', '.'])
    (String.mk ['a', Char.ofNat 8221, 'b']) (Char.ofNat 8221)
    (by decide) (by decide)
